import Mathlib

/-!
Verification development for the Hikari Melody bot (`main.py`).

The file embeds, as executable Lean definitions, the parts of `main.py` that
the specification's testable properties talk about:

* the filename codec (`sanitize_filename`, the `"{i+1} - {title}.mp3"` ideal
  filenames, and the `filename.split(" - ", 1)[1]` content extraction used by
  `sync_playlist`);
* the reconciliation diff of `sync_playlist` (lines 444-601): unique-track
  deletes, position renames, duplicate-set deletes, missing-track downloads and
  the final directory swap, all produced as one ordered action list.  Queued
  edits do not run during the sync itself (they are drained later by the edit
  processor), so every `os.listdir(TEMP_DIR)` taken while diffing sees the
  staged listing as it was copied from the library; the embedding therefore
  passes that single listing to every phase;
* the playback guard at the top of `sync_playlist` (lines 413-417);
* the ffmpeg post-processing fallback of `ffmpeg_normalize_and_trim`
  (lines 137-181), with the two external subprocess exits as parameters;
* the edit-queue drain loop of `_edit_queue_processor` (lines 936-962),
  as a step machine over an explicit pending/executed pair.
-/

namespace Hikari

/-! ## Filename codec (main.py lines 109-111)

`sanitize_filename` removes the characters of the regex class
`[\\/*?:"<>|]`, then applies Python `str.strip()` (whitespace on both ends)
followed by `str.rstrip(' .')` (trailing spaces and dots). -/

/-- Characters removed by the `re.sub(r'[\\/*?:"<>|]', "", name)` call. -/
def isHostile (c : Char) : Bool :=
  c = '\\' || c = '/' || c = '*' || c = '?' || c = ':' || c = '"' ||
  c = '<' || c = '>' || c = '|'

/-- Python `str.strip()` on a character list: drop whitespace on both ends. -/
def pyStrip (l : List Char) : List Char :=
  ((l.dropWhile Char.isWhitespace).reverse.dropWhile Char.isWhitespace).reverse

/-- Python `str.rstrip(' .')`: drop trailing spaces and dots. -/
def rstripSpaceDot (l : List Char) : List Char :=
  (l.reverse.dropWhile (fun c => c = ' ' || c = '.')).reverse

/-- Translation of `sanitize_filename` from main.py line 109. -/
def sanitize_filename (name : String) : String :=
  ⟨rstripSpaceDot (pyStrip (name.data.filter (fun c => !isHostile c)))⟩

/-- A playlist item's track: `item['track']['name']` and
`item['track']['artists'][0]['name']` are all the sync uses. -/
structure Track where
  name : String
  artist : String
  deriving DecidableEq, Repr

/-- A playlist item; `item.get('track')` can be `None` (main.py line 445). -/
abbrev PlaylistItem := Option Track

/-- The content name of a track: `sanitize_filename(item['track']['name']) + ".mp3"`
(main.py line 445). -/
def contentName (name : String) : String :=
  sanitize_filename name ++ ".mp3"

/-- The ideal position-prefixed filename
`f"{i+1} - {sanitize_filename(item['track']['name'])}.mp3"`
(main.py lines 450, 507, 534), with `i` the 0-based playlist index. -/
def idealFull (i : Nat) (name : String) : String :=
  Nat.repr (i + 1) ++ " - " ++ sanitize_filename name ++ ".mp3"

/-- The yt-dlp search query `f"{track_name} by {artist_name} audio"`
(main.py line 575). -/
def searchQuery (t : Track) : String :=
  t.name ++ " by " ++ t.artist ++ " audio"

/-- Constant `TEMP_DIR = "songs_temp"` (main.py line 53). -/
def tempDir : String := "songs_temp"

/-- Constant `SONGS_DIR = "songs"` (main.py line 52). -/
def songsDir : String := "songs"

/-- The part of a filename after the first `" - "` separator:
`filename.split(" - ", 1)[1]`, defined when `" - " in filename`
(main.py lines 464-467, 513). -/
def afterSep : List Char → Option (List Char)
  | [] => none
  | c :: rest =>
    if c = ' ' ∧ rest.take 2 = ['-', ' '] then some (rest.drop 2)
    else afterSep rest

/-- Content extraction on strings: `some` of the text after the first `" - "`
when the separator occurs, `none` otherwise. -/
def contentAfterDash (s : String) : Option String :=
  (afterSep s.data).map fun l => ⟨l⟩

/-! ## Round-trip infrastructure

`idealFull i name` starts with the decimal digits of `i+1`, which contain no
space, so the first `" - "` of the filename is the one inserted by the codec
and `contentAfterDash` recovers `contentName name`. -/

theorem digitChar_ne_space (n : Nat) : Nat.digitChar n ≠ ' ' := by
  by_cases hsmall : n < 16
  · interval_cases n <;> decide
  · have hstar : Nat.digitChar n = '*' := by
      unfold Nat.digitChar
      repeat rw [if_neg (by omega)]
    rw [hstar]
    decide

theorem toDigitsCore_no_space (b : Nat) (fuel : Nat) :
    ∀ (k : Nat) (acc : List Char), ' ' ∉ acc →
      ' ' ∉ Nat.toDigitsCore b fuel k acc := by
  induction fuel with
  | zero => exact fun k acc hacc => hacc
  | succ m ih =>
    intro k acc hacc
    have hkeep : ' ' ∉ Nat.digitChar (k % b) :: acc := by
      intro hmem
      rcases List.mem_cons.mp hmem with he | he
      · exact digitChar_ne_space (k % b) he.symm
      · exact hacc he
    rw [Nat.toDigitsCore]
    by_cases hdiv : k / b = 0
    · rw [if_pos hdiv]
      exact hkeep
    · rw [if_neg hdiv]
      exact ih (k / b) _ hkeep

theorem repr_data_ne_space (n : Nat) : ∀ c ∈ (Nat.repr n).data, c ≠ ' ' := by
  intro c hc hceq
  subst hceq
  have hdig : (Nat.repr n).data = Nat.toDigits 10 n := rfl
  rw [hdig] at hc
  exact toDigitsCore_no_space 10 (n + 1) n [] (by simp) hc

theorem afterSep_append_of_ne_space (l : List Char) (rest : List Char)
    (h : ∀ c ∈ l, c ≠ ' ') :
    afterSep (l ++ ' ' :: '-' :: ' ' :: rest) = some rest := by
  induction l with
  | nil => simp [afterSep]
  | cons c l ih =>
    have hc : c ≠ ' ' := h c (by simp)
    have hl : ∀ d ∈ l, d ≠ ' ' := fun d hd => h d (by simp [hd])
    simp only [List.cons_append, afterSep]
    rw [if_neg (by simp [hc])]
    exact ih hl

/-- Round-trip helper: the content extracted from an ideal filename is exactly
the track's content name (sanitized title plus the `.mp3` extension). -/
theorem contentAfterDash_idealFull (i : Nat) (name : String) :
    contentAfterDash (idealFull i name) = some (contentName name) := by
  have hdata : (idealFull i name).data =
      (Nat.repr (i + 1)).data ++
        ' ' :: '-' :: ' ' :: ((sanitize_filename name).data ++ ".mp3".data) := by
    simp [idealFull, String.data_append]
  have h := afterSep_append_of_ne_space (Nat.repr (i + 1)).data
    ((sanitize_filename name).data ++ ".mp3".data) (repr_data_ne_space (i + 1))
  simp only [contentAfterDash, hdata, h, Option.map_some']
  rfl

/-! ## Reconciler (main.py `sync_playlist`, lines 444-601)

The sync computes its whole diff before any queued edit runs (the edit
processor drains on its own 5-second cadence), so the staged listing it sees
at each `os.listdir(TEMP_DIR)` is the listing copied from the library.  Every
phase below therefore receives the same `listing`.  A directory listing holds
no duplicate filenames, which is why modelling the Python dicts
`ideal_state_unique` / `local_state_unique` as association lists is faithful:
their keys (ideal filenames, respectively staged filenames) are distinct. -/

/-- An action computed by one sync.  `delete`/`rename`/`download` record the
directory their path was joined with (`os.path.join(dir, filename)`);
`swapDirs` is the queued `_swap_dirs` closure (removes `SONGS_DIR`, moves
`TEMP_DIR` into its place, main.py lines 593-601); `refreshStatus` is the
queued `update_status_message` (line 605). -/
inductive Action where
  | delete (dir filename : String)
  | rename (dir src dst : String)
  | download (dir query dest : String)
  | swapDirs
  | refreshStatus
  deriving DecidableEq, Repr

/-- Translation of `content_names` (main.py line 445): the content names of the items that
have a track, in playlist order. -/
def contentNames (tracks : List PlaylistItem) : List String :=
  tracks.filterMap fun item => item.map fun t => contentName t.name

/-- The test `name in duplicate_content_names` (main.py lines 446-447): a content name
whose count among `content_names` exceeds one. -/
def duplicateContent (tracks : List PlaylistItem) (c : String) : Prop :=
  1 < (contentNames tracks).count c

instance (tracks : List PlaylistItem) (c : String) :
    Decidable (duplicateContent tracks c) := by
  unfold duplicateContent; infer_instance

/-- Translation of `ideal_state_unique` (main.py lines 449-453): ideal filename ↦ content
name, for the tracks whose content name is not duplicated. -/
def idealUnique (tracks : List PlaylistItem) : List (String × String) :=
  tracks.enum.filterMap fun p =>
    match p.2 with
    | none => none
    | some t =>
      if duplicateContent tracks (contentName t.name) then none
      else some (idealFull p.1 t.name, contentName t.name)

/-- Translation of `local_state_unique` (main.py lines 464-468): staged filename ↦ content
name, for staged files containing `" - "` whose content name is not
duplicated. -/
def localUnique (tracks : List PlaylistItem) (listing : List String) :
    List (String × String) :=
  listing.filterMap fun filename =>
    match contentAfterDash filename with
    | none => none
    | some c => if duplicateContent tracks c then none else some (filename, c)

/-- Deletes queued for unique-content staged files absent from the ideal
playlist (main.py lines 474-486): content not among
`ideal_state_unique.values()`. -/
def uniqueDeletes (tracks : List PlaylistItem) (listing : List String) :
    List Action :=
  (localUnique tracks listing).filterMap fun p =>
    if p.2 ∈ (idealUnique tracks).map Prod.snd then none
    else some (.delete tempDir p.1)

/-- Renames queued for staged files that need reindexing (main.py
lines 489-503): same content name, different full filename. -/
def uniqueRenames (tracks : List PlaylistItem) (listing : List String) :
    List Action :=
  (idealUnique tracks).flatMap fun ideal =>
    (localUnique tracks listing).filterMap fun lcl =>
      if ideal.2 = lcl.2 ∧ ideal.1 ≠ lcl.1 then
        some (.rename tempDir lcl.1 ideal.1)
      else none

/-- Translation of `ideal_filenames_duplicates` (main.py lines 506-510): ideal filenames of
the tracks whose content name is duplicated. -/
def idealDupFilenames (tracks : List PlaylistItem) : List String :=
  tracks.enum.filterMap fun p =>
    match p.2 with
    | none => none
    | some t =>
      if duplicateContent tracks (contentName t.name) then
        some (idealFull p.1 t.name)
      else none

/-- Deletes queued for staged files with a duplicated content name that do not
exactly match an ideal duplicate filename (main.py lines 511-525). -/
def dupDeletes (tracks : List PlaylistItem) (listing : List String) :
    List Action :=
  listing.filterMap fun filename =>
    match contentAfterDash filename with
    | none => none
    | some c =>
      if duplicateContent tracks c ∧ filename ∉ idealDupFilenames tracks then
        some (.delete tempDir filename)
      else none

/-- All ideal filenames, one per track, in playlist order (the names used by
the missing-file scan, main.py line 534). -/
def idealFilenames (tracks : List PlaylistItem) : List String :=
  tracks.enum.filterMap fun p => p.2.map fun t => idealFull p.1 t.name

/-- Downloads scheduled for the ideal filenames absent from the staged listing
(main.py lines 527-536 and 572-580): one per track whose ideal filename is not
in `current_temp_files`, writing to `TEMP_DIR`. -/
def downloads (tracks : List PlaylistItem) (listing : List String) :
    List Action :=
  tracks.enum.filterMap fun p =>
    match p.2 with
    | none => none
    | some t =>
      if idealFull p.1 t.name ∈ listing then none
      else some (.download tempDir (searchQuery t) (idealFull p.1 t.name))

/-- The ordered action list of one sync that passes the guards: queued deletes
for unique-content strays, queued renames, queued duplicate deletes, the
downloads executed into the staging directory, the queued directory swap, and
the queued status refresh (main.py lines 473-605, in program order). -/
def syncActions (tracks : List PlaylistItem) (listing : List String) :
    List Action :=
  uniqueDeletes tracks listing ++ uniqueRenames tracks listing ++
    dupDeletes tracks listing ++ downloads tracks listing ++
    [.swapDirs, .refreshStatus]

/-! Projections over action lists, used to state the claims. -/

/-- Destination filenames of the rename actions of a plan. -/
def renameDsts (plan : List Action) : List String :=
  plan.filterMap fun a =>
    match a with
    | .rename _ _ dst => some dst
    | _ => none

/-- Source filenames of the rename actions of a plan. -/
def renameSrcs (plan : List Action) : List String :=
  plan.filterMap fun a =>
    match a with
    | .rename _ src _ => some src
    | _ => none

/-- Destination filenames of the download actions of a plan. -/
def downloadDsts (plan : List Action) : List String :=
  plan.filterMap fun a =>
    match a with
    | .download _ _ dest => some dest
    | _ => none

/-- Whether an action is a download. -/
def isDownload : Action → Bool
  | .download _ _ _ => true
  | _ => false

/-- Whether an action is a delete. -/
def isDelete : Action → Bool
  | .delete _ _ => true
  | _ => false

/-- Whether an action is a rename. -/
def isRename : Action → Bool
  | .rename _ _ _ => true
  | _ => false

/-- The directory a per-file action operates in, `none` for the others. -/
def actionDir : Action → Option String
  | .delete d _ => some d
  | .rename d _ _ => some d
  | .download d _ _ => some d
  | _ => none

/-- Whether an action mutates the given directory.  The swap removes the live
`SONGS_DIR` and moves `TEMP_DIR` (main.py lines 595-597); the status refresh
touches no directory. -/
def actionTouches (a : Action) (d : String) : Bool :=
  match a with
  | .delete dir _ => dir = d
  | .rename dir _ _ => dir = d
  | .download dir _ _ => dir = d
  | .swapDirs => d = songsDir || d = tempDir
  | .refreshStatus => false

/-- Whether an action mutates the filesystem at all. -/
def isFsMutating : Action → Bool
  | .refreshStatus => false
  | _ => true

/-! ## The sync entry guards (main.py lines 403-442)

`sync_playlist` returns before staging anything when playback is in progress
(lines 413-417, the channel message says the sync "will automatically run
later") or when the Spotify client is down (lines 418-422).  The global state
it would otherwise update (`g_spotify_tracks` at line 442, `g_last_sync_time`
at line 603) is modelled explicitly; `g_currently_playing_info` is non-empty
exactly when a track is playing, abstracted to the playing file's path. -/

/-- The globals `sync_playlist` reads or writes. -/
structure BotState where
  /-- Global `g_currently_playing_info`: `some path` when a track is playing. -/
  currentlyPlaying : Option String
  /-- Global `g_spotify_tracks`. -/
  spotifyTracks : List PlaylistItem
  /-- Global `g_last_sync_time`. -/
  lastSyncTime : Option Nat
  deriving DecidableEq, Repr

/-- How one call of `sync_playlist` reports back to its requester. -/
inductive SyncOutcome where
  /-- Playback in progress: "Sync will automatically run later." -/
  | postponed
  /-- Reported as "Spotify connection is down. Cannot sync." -/
  | spotifyDown
  /-- Reported as "Sync queued!" with the action counts of the summary message.  The real
  `downloaded_count` counts the downloads whose worker returned success; the
  count of scheduled downloads is used here since success depends on the
  network. -/
  | completed (downloaded renamed deleted : Nat)
  deriving DecidableEq, Repr

/-- Translation of `sync_playlist` (main.py lines 403-617): guards, then the reconciliation
diff.  `remote` is the paginated playlist fetch and `listing` the staged copy
of the library directory; both are inputs because they come from the outside
world.  Returns the updated globals, the reported outcome and the computed
action list. -/
def sync_playlist (st : BotState) (spAvailable : Bool)
    (remote : List PlaylistItem) (listing : List String) (now : Nat) :
    BotState × SyncOutcome × List Action :=
  if st.currentlyPlaying.isSome then (st, .postponed, [])
  else if !spAvailable then (st, .spotifyDown, [])
  else
    let acts := syncActions remote listing
    ({ st with spotifyTracks := remote, lastSyncTime := some now },
      .completed (acts.countP (fun a => isDownload a))
        (acts.countP (fun a => isRename a))
        (acts.countP (fun a => isDelete a)),
      acts)

/-! ## Audio post-processing (main.py `ffmpeg_normalize_and_trim`,
lines 137-181)

The two ffmpeg invocations are external subprocesses; their exit codes are
inputs.  The content stored at `input_path` after the call is tracked
abstractly: the combined silenceremove+loudnorm output, the loudnorm-only
fallback output, or the untouched original.  `subprocess.run(..., check=False)`
never raises on a nonzero exit, and the surrounding `try` converts any
exception into `return False`, so the function is total and returns a Bool. -/

/-- What `input_path` holds after post-processing. -/
inductive AudioContent where
  /-- The file as downloaded, untouched. -/
  | original
  /-- Output of the silence-trim + loudnorm filter chain. -/
  | trimmedNormalized
  /-- Output of the loudnorm-only fallback (not silence-trimmed). -/
  | normalizedOnly
  deriving DecidableEq, Repr

/-- Exit codes of the two possible ffmpeg invocations. -/
structure FfmpegEnv where
  /-- Return code of the combined silenceremove + loudnorm command. -/
  combinedExit : Int
  /-- Return code of the loudnorm-only fallback command. -/
  fallbackExit : Int
  deriving DecidableEq, Repr

/-- Translation of `ffmpeg_normalize_and_trim` (main.py lines 137-181): run the combined
filter; on nonzero exit retry with loudnorm only; `os.replace` the original
only with a successful output.  Returns (reported success, resulting file). -/
def ffmpeg_normalize_and_trim (env : FfmpegEnv) : Bool × AudioContent :=
  if env.combinedExit ≠ 0 then
    if env.fallbackExit = 0 then (true, .normalizedOnly)
    else (false, .original)
  else (true, .trimmedNormalized)

/-! ## Edit queue (main.py `_edit_queue_processor`, lines 936-962)

`edit_queue` is an `asyncio.Queue` (FIFO).  Producers append with
`edit_queue.put`; every five seconds the processor pops the entire current
backlog into `tasks_to_run` in queue order and awaits each item in list
order, catching per-item exceptions and continuing, so a failing item never
reorders or drops the ones after it.  The model is a step machine: an
`enqueue` event appends to the pending list, a `drain` event moves the whole
pending list, in order, onto the executed list. -/

/-- One event seen by the edit queue. -/
inductive QueueEvent (α : Type) where
  /-- A producer enqueues one edit. -/
  | enqueue (e : α)
  /-- The processor wakes and drains the entire backlog. -/
  | drain
  deriving DecidableEq, Repr

/-- Queue state: the pending backlog and the edits already executed, oldest
first. -/
structure QueueState (α : Type) where
  pending : List α
  executed : List α
  deriving DecidableEq, Repr

/-- One step of the queue: `put` appends; a drain executes the whole backlog
in FIFO order. -/
def qstep {α : Type} (s : QueueState α) : QueueEvent α → QueueState α
  | .enqueue e => ⟨s.pending ++ [e], s.executed⟩
  | .drain => ⟨[], s.executed ++ s.pending⟩

/-- Run the queue from the empty initial state over a list of events. -/
def drainRun {α : Type} (evs : List (QueueEvent α)) : QueueState α :=
  evs.foldl qstep ⟨[], []⟩

/-- The edits enqueued by a list of events, in enqueue order. -/
def enqueuedOf {α : Type} (evs : List (QueueEvent α)) : List α :=
  evs.filterMap fun ev =>
    match ev with
    | .enqueue e => some e
    | .drain => none

/-! ## Membership characterizations of the reconciler phases -/

theorem mem_idealUnique {tracks : List PlaylistItem} {g c : String} :
    (g, c) ∈ idealUnique tracks ↔
      ∃ i t, (i, some t) ∈ tracks.enum ∧
        ¬ duplicateContent tracks (contentName t.name) ∧
        g = idealFull i t.name ∧ c = contentName t.name := by
  unfold idealUnique
  rw [List.mem_filterMap]
  constructor
  · rintro ⟨⟨i, item⟩, hmem, heq⟩
    cases item with
    | none => simp at heq
    | some t =>
      by_cases hd : duplicateContent tracks (contentName t.name)
      · simp [hd] at heq
      · simp only [hd, if_neg, if_false] at heq
        rw [Option.some.injEq, Prod.mk.injEq] at heq
        exact ⟨i, t, hmem, hd, heq.1.symm, heq.2.symm⟩
  · rintro ⟨i, t, hmem, hd, hg, hc⟩
    exact ⟨(i, some t), hmem, by simp [hd, hg, hc]⟩

theorem mem_localUnique {tracks : List PlaylistItem} {listing : List String}
    {f c : String} :
    (f, c) ∈ localUnique tracks listing ↔
      f ∈ listing ∧ contentAfterDash f = some c ∧
        ¬ duplicateContent tracks c := by
  unfold localUnique
  rw [List.mem_filterMap]
  constructor
  · rintro ⟨g, hmem, heq⟩
    cases hsplit : contentAfterDash g with
    | none => rw [hsplit] at heq; simp at heq
    | some c' =>
      rw [hsplit] at heq
      by_cases hd : duplicateContent tracks c'
      · simp [hd] at heq
      · simp only [hd, if_neg, if_false] at heq
        rw [Option.some.injEq, Prod.mk.injEq] at heq
        obtain ⟨hf, hc⟩ := heq
        subst hf; subst hc
        exact ⟨hmem, hsplit, hd⟩
  · rintro ⟨hmem, hsplit, hd⟩
    exact ⟨f, hmem, by simp [hsplit, hd]⟩

theorem mem_idealDupFilenames {tracks : List PlaylistItem} {g : String} :
    g ∈ idealDupFilenames tracks ↔
      ∃ i t, (i, some t) ∈ tracks.enum ∧
        duplicateContent tracks (contentName t.name) ∧
        g = idealFull i t.name := by
  unfold idealDupFilenames
  rw [List.mem_filterMap]
  constructor
  · rintro ⟨⟨i, item⟩, hmem, heq⟩
    cases item with
    | none => simp at heq
    | some t =>
      by_cases hd : duplicateContent tracks (contentName t.name)
      · simp only [hd, if_pos, if_true, Option.some.injEq] at heq
        exact ⟨i, t, hmem, hd, heq.symm⟩
      · simp [hd] at heq
  · rintro ⟨i, t, hmem, hd, hg⟩
    exact ⟨(i, some t), hmem, by simp [hd, hg]⟩

theorem mem_idealFilenames {tracks : List PlaylistItem} {g : String} :
    g ∈ idealFilenames tracks ↔
      ∃ i t, (i, some t) ∈ tracks.enum ∧ g = idealFull i t.name := by
  unfold idealFilenames
  rw [List.mem_filterMap]
  constructor
  · rintro ⟨⟨i, item⟩, hmem, heq⟩
    cases item with
    | none => simp at heq
    | some t =>
      simp only [Option.map_some', Option.some.injEq] at heq
      exact ⟨i, t, hmem, heq.symm⟩
  · rintro ⟨i, t, hmem, hg⟩
    exact ⟨(i, some t), hmem, by simp [hg]⟩

theorem mem_uniqueDeletes {tracks : List PlaylistItem} {listing : List String}
    {a : Action} :
    a ∈ uniqueDeletes tracks listing ↔
      ∃ f c, a = .delete tempDir f ∧ (f, c) ∈ localUnique tracks listing ∧
        c ∉ (idealUnique tracks).map Prod.snd := by
  unfold uniqueDeletes
  rw [List.mem_filterMap]
  constructor
  · rintro ⟨⟨f, c⟩, hmem, heq⟩
    by_cases hv : c ∈ (idealUnique tracks).map Prod.snd
    · simp [hv] at heq
    · simp only [hv, if_neg, if_false, Option.some.injEq] at heq
      exact ⟨f, c, heq.symm, hmem, hv⟩
  · rintro ⟨f, c, ha, hmem, hv⟩
    exact ⟨(f, c), hmem, by simp [hv, ha]⟩

theorem mem_uniqueRenames {tracks : List PlaylistItem} {listing : List String}
    {a : Action} :
    a ∈ uniqueRenames tracks listing ↔
      ∃ src dst c, a = .rename tempDir src dst ∧
        (dst, c) ∈ idealUnique tracks ∧ (src, c) ∈ localUnique tracks listing ∧
        dst ≠ src := by
  unfold uniqueRenames
  rw [List.mem_flatMap]
  constructor
  · rintro ⟨⟨iF, iC⟩, hi, hmem⟩
    rw [List.mem_filterMap] at hmem
    obtain ⟨⟨lF, lC⟩, hl, heq⟩ := hmem
    by_cases hcond : iC = lC ∧ iF ≠ lF
    · rw [if_pos hcond] at heq
      have heq' := Option.some.inj heq
      refine ⟨lF, iF, iC, heq'.symm, hi, ?_, hcond.2⟩
      rw [hcond.1]; exact hl
    · simp [hcond] at heq
  · rintro ⟨src, dst, c, ha, hi, hl, hne⟩
    refine ⟨(dst, c), hi, ?_⟩
    rw [List.mem_filterMap]
    exact ⟨(src, c), hl, by simp [hne, ha]⟩

theorem mem_dupDeletes {tracks : List PlaylistItem} {listing : List String}
    {a : Action} :
    a ∈ dupDeletes tracks listing ↔
      ∃ f c, a = .delete tempDir f ∧ f ∈ listing ∧
        contentAfterDash f = some c ∧ duplicateContent tracks c ∧
        f ∉ idealDupFilenames tracks := by
  unfold dupDeletes
  rw [List.mem_filterMap]
  constructor
  · rintro ⟨f, hmem, heq⟩
    cases hsplit : contentAfterDash f with
    | none => rw [hsplit] at heq; simp at heq
    | some c =>
      rw [hsplit] at heq
      by_cases hcond : duplicateContent tracks c ∧ f ∉ idealDupFilenames tracks
      · dsimp only at heq
        rw [if_pos hcond] at heq
        exact ⟨f, c, (Option.some.inj heq).symm, hmem, hsplit, hcond.1, hcond.2⟩
      · simp [hcond] at heq
  · rintro ⟨f, c, ha, hmem, hsplit, hd, hni⟩
    exact ⟨f, hmem, by simp [hsplit, hd, hni, ha]⟩

theorem mem_downloads {tracks : List PlaylistItem} {listing : List String}
    {a : Action} :
    a ∈ downloads tracks listing ↔
      ∃ i t, (i, some t) ∈ tracks.enum ∧ idealFull i t.name ∉ listing ∧
        a = .download tempDir (searchQuery t) (idealFull i t.name) := by
  unfold downloads
  rw [List.mem_filterMap]
  constructor
  · rintro ⟨⟨i, item⟩, hmem, heq⟩
    cases item with
    | none => simp at heq
    | some t =>
      by_cases habs : idealFull i t.name ∈ listing
      · simp [habs] at heq
      · simp only [habs, if_neg, if_false, Option.some.injEq] at heq
        exact ⟨i, t, hmem, habs, heq.symm⟩
  · rintro ⟨i, t, hmem, habs, ha⟩
    exact ⟨(i, some t), hmem, by simp [habs, ha]⟩

/-! ## Duplicate detection from two playlist positions -/

theorem duplicate_of_two_positions_lt {tracks : List PlaylistItem}
    {i j : Nat} {t u : Track}
    (hi : tracks[i]? = some (some t)) (hj : tracks[j]? = some (some u))
    (hij : i < j) (hc : contentName t.name = contentName u.name) :
    duplicateContent tracks (contentName t.name) := by
  have hlen : i < tracks.length := (List.getElem?_eq_some.mp hi).1
  have hti : tracks[i] = some t := (List.getElem?_eq_some.mp hi).2
  have hu_drop : some u ∈ tracks.drop (i + 1) := by
    have hidx : (tracks.drop (i + 1))[j - i - 1]? = some (some u) := by
      rw [List.getElem?_drop, show i + 1 + (j - i - 1) = j by omega]
      exact hj
    exact List.getElem?_mem hidx
  have hsub : [some t, some u].Sublist tracks := by
    have h1 : [some u].Sublist (tracks.drop (i + 1)) :=
      List.singleton_sublist.mpr hu_drop
    have h2 : (some t :: [some u]).Sublist (some t :: tracks.drop (i + 1)) :=
      h1.cons₂ (some t)
    have h3 : some t :: tracks.drop (i + 1) = tracks.drop i := by
      rw [← hti]; exact List.getElem_cons_drop tracks i hlen
    rw [h3] at h2
    exact h2.trans (List.drop_sublist i tracks)
  have hsub2 : [contentName t.name, contentName u.name].Sublist
      (contentNames tracks) := by
    have := hsub.filterMap (fun item => item.map fun t => contentName t.name)
    simpa [contentNames] using this
  rw [← hc] at hsub2
  have hcount := hsub2.count_le (contentName t.name)
  simp at hcount
  unfold duplicateContent
  omega

theorem duplicate_of_two_positions {tracks : List PlaylistItem}
    {i j : Nat} {t u : Track}
    (hi : tracks[i]? = some (some t)) (hj : tracks[j]? = some (some u))
    (hij : i ≠ j) (hc : contentName t.name = contentName u.name) :
    duplicateContent tracks (contentName t.name) := by
  rcases Nat.lt_or_ge i j with h | h
  · exact duplicate_of_two_positions_lt hi hj h hc
  · have hji : j < i := Nat.lt_of_le_of_ne h (fun e => hij e.symm)
    rw [hc]
    exact duplicate_of_two_positions_lt hj hi hji hc.symm

/-- Among the unique-content ideal entries, the content name determines the
ideal filename: a second entry with the same content would make the content a
duplicate. -/
theorem idealUnique_content_inj {tracks : List PlaylistItem}
    {g₁ g₂ c : String} (h₁ : (g₁, c) ∈ idealUnique tracks)
    (h₂ : (g₂, c) ∈ idealUnique tracks) : g₁ = g₂ := by
  obtain ⟨i, t, hti, hdt, hg₁, hct⟩ := mem_idealUnique.mp h₁
  obtain ⟨j, u, htj, hdu, hg₂, hcu⟩ := mem_idealUnique.mp h₂
  have hi : tracks[i]? = some (some t) :=
    List.mk_mem_enum_iff_getElem?.mp hti
  have hj : tracks[j]? = some (some u) :=
    List.mk_mem_enum_iff_getElem?.mp htj
  have hcc : contentName t.name = contentName u.name := by
    rw [← hct, ← hcu]
  by_cases hij : i = j
  · subst hij
    have : some t = some u := by
      have := hi.symm.trans hj
      exact Option.some.inj this
    rw [hg₁, hg₂, Option.some.inj this]
  · exact absurd (duplicate_of_two_positions hi hj hij hcc) hdt

/-! ## Shape of each phase's actions -/

theorem uniqueDeletes_shape {tracks : List PlaylistItem} {listing : List String}
    {a : Action} (h : a ∈ uniqueDeletes tracks listing) :
    ∃ f, a = .delete tempDir f := by
  obtain ⟨f, c, ha, -, -⟩ := mem_uniqueDeletes.mp h
  exact ⟨f, ha⟩

theorem uniqueRenames_shape {tracks : List PlaylistItem} {listing : List String}
    {a : Action} (h : a ∈ uniqueRenames tracks listing) :
    ∃ s d, a = .rename tempDir s d := by
  obtain ⟨s, d, c, ha, -, -, -⟩ := mem_uniqueRenames.mp h
  exact ⟨s, d, ha⟩

theorem dupDeletes_shape {tracks : List PlaylistItem} {listing : List String}
    {a : Action} (h : a ∈ dupDeletes tracks listing) :
    ∃ f, a = .delete tempDir f := by
  obtain ⟨f, c, ha, -, -, -, -⟩ := mem_dupDeletes.mp h
  exact ⟨f, ha⟩

theorem downloads_shape {tracks : List PlaylistItem} {listing : List String}
    {a : Action} (h : a ∈ downloads tracks listing) :
    ∃ q d, a = .download tempDir q d := by
  obtain ⟨i, t, -, -, ha⟩ := mem_downloads.mp h
  exact ⟨searchQuery t, idealFull i t.name, ha⟩

/-- Membership in the whole plan, phase by phase. -/
theorem mem_syncActions {tracks : List PlaylistItem} {listing : List String}
    {a : Action} :
    a ∈ syncActions tracks listing ↔
      a ∈ uniqueDeletes tracks listing ∨ a ∈ uniqueRenames tracks listing ∨
      a ∈ dupDeletes tracks listing ∨ a ∈ downloads tracks listing ∨
      a = .swapDirs ∨ a = .refreshStatus := by
  unfold syncActions
  simp [List.mem_append, or_assoc]

/-! ## Download projection algebra (for C3) -/

theorem downloadDsts_append (p q : List Action) :
    downloadDsts (p ++ q) = downloadDsts p ++ downloadDsts q := by
  unfold downloadDsts
  exact List.filterMap_append p q _

theorem downloadDsts_uniqueDeletes (tracks : List PlaylistItem)
    (listing : List String) :
    downloadDsts (uniqueDeletes tracks listing) = [] := by
  refine List.filterMap_eq_nil_iff.mpr fun a ha => ?_
  obtain ⟨f, rfl⟩ := uniqueDeletes_shape ha
  rfl

theorem downloadDsts_uniqueRenames (tracks : List PlaylistItem)
    (listing : List String) :
    downloadDsts (uniqueRenames tracks listing) = [] := by
  refine List.filterMap_eq_nil_iff.mpr fun a ha => ?_
  obtain ⟨s, d, rfl⟩ := uniqueRenames_shape ha
  rfl

theorem downloadDsts_dupDeletes (tracks : List PlaylistItem)
    (listing : List String) :
    downloadDsts (dupDeletes tracks listing) = [] := by
  refine List.filterMap_eq_nil_iff.mpr fun a ha => ?_
  obtain ⟨f, rfl⟩ := dupDeletes_shape ha
  rfl

theorem downloadDsts_downloads (tracks : List PlaylistItem)
    (listing : List String) :
    downloadDsts (downloads tracks listing) =
      (idealFilenames tracks).filter fun f => decide (f ∉ listing) := by
  unfold downloadDsts downloads idealFilenames
  rw [List.filterMap_filterMap, List.filter_filterMap]
  refine List.filterMap_congr fun p hp => ?_
  cases p.2 with
  | none => rfl
  | some t =>
    dsimp only [Option.map_some']
    by_cases habs : idealFull p.1 t.name ∈ listing
    · rw [if_pos habs]
      simp [Option.filter, habs]
    · rw [if_neg habs]
      simp [Option.filter, habs]

/-- Every download destination counts one download action and conversely. -/
theorem downloadDsts_length (plan : List Action) :
    (downloadDsts plan).length = plan.countP isDownload := by
  induction plan with
  | nil => rfl
  | cons a rest ih =>
    cases a <;>
      simp [downloadDsts, List.filterMap_cons, List.countP_cons, isDownload,
        ← ih]

/-! ## Ideal-state listing lemmas (for C4) -/

theorem localUnique_sub_idealUnique {tracks : List PlaylistItem}
    {listing : List String}
    (h : ∀ f ∈ listing, f ∈ idealFilenames tracks) :
    ∀ p ∈ localUnique tracks listing, p ∈ idealUnique tracks := by
  rintro ⟨f, c⟩ hp
  obtain ⟨hf, hsplit, hd⟩ := mem_localUnique.mp hp
  obtain ⟨i, t, hti, hfeq⟩ := mem_idealFilenames.mp (h f hf)
  subst hfeq
  rw [contentAfterDash_idealFull] at hsplit
  have hc : c = contentName t.name := (Option.some.inj hsplit).symm
  subst hc
  exact mem_idealUnique.mpr ⟨i, t, hti, hd, rfl, rfl⟩

theorem downloadDsts_finalActions :
    downloadDsts [Action.swapDirs, Action.refreshStatus] = [] := rfl

/-! ## Claim theorems -/

/-- C3: in every sync, the downloads scheduled are exactly one per ideal
filename absent from the staged listing taken at diff time — their number
equals the number of absent ideal filenames, and their destinations are
precisely the absent ideal filenames in playlist order. -/
theorem c3_download_per_absent_ideal (tracks : List PlaylistItem)
    (listing : List String) :
    (syncActions tracks listing).countP isDownload =
      ((idealFilenames tracks).filter fun f => decide (f ∉ listing)).length ∧
    downloadDsts (syncActions tracks listing) =
      ((idealFilenames tracks).filter fun f => decide (f ∉ listing)) := by
  have hdsts : downloadDsts (syncActions tracks listing) =
      ((idealFilenames tracks).filter fun f => decide (f ∉ listing)) := by
    unfold syncActions
    simp only [downloadDsts_append, downloadDsts_uniqueDeletes,
      downloadDsts_uniqueRenames, downloadDsts_dupDeletes,
      downloadDsts_downloads, downloadDsts_finalActions,
      List.append_nil, List.nil_append]
  exact ⟨by rw [← downloadDsts_length, hdsts], hdsts⟩

/-- C4: a staging listing that is already exactly the ideal filename set
produces no Delete, no Rename and no Download — the plan is just the queued
swap and status refresh. -/
theorem c4_resync_idempotent (tracks : List PlaylistItem)
    (listing : List String) (h : listing.Perm (idealFilenames tracks)) :
    syncActions tracks listing = [Action.swapDirs, Action.refreshStatus] := by
  have hsub : ∀ f ∈ listing, f ∈ idealFilenames tracks :=
    fun f hf => h.mem_iff.mp hf
  have hsup : ∀ f ∈ idealFilenames tracks, f ∈ listing :=
    fun f hf => h.mem_iff.mpr hf
  have h1 : uniqueDeletes tracks listing = [] := by
    unfold uniqueDeletes
    refine List.filterMap_eq_nil_iff.mpr fun p hp => ?_
    have hpi := localUnique_sub_idealUnique hsub p hp
    rw [if_pos (List.mem_map.mpr ⟨p, hpi, rfl⟩)]
  have h2 : uniqueRenames tracks listing = [] := by
    unfold uniqueRenames
    refine List.flatMap_eq_nil_iff.mpr fun ideal hi => ?_
    refine List.filterMap_eq_nil_iff.mpr fun lcl hl => ?_
    by_cases hcond : ideal.2 = lcl.2 ∧ ideal.1 ≠ lcl.1
    · exfalso
      have hl' := localUnique_sub_idealUnique hsub lcl hl
      have hl'' : (lcl.1, ideal.2) ∈ idealUnique tracks := by
        rw [hcond.1]; exact hl'
      have hi' : (ideal.1, ideal.2) ∈ idealUnique tracks := hi
      exact hcond.2 (idealUnique_content_inj hi' hl'')
    · rw [if_neg hcond]
  have h3 : dupDeletes tracks listing = [] := by
    unfold dupDeletes
    refine List.filterMap_eq_nil_iff.mpr fun f hf => ?_
    obtain ⟨i, t, hti, hfeq⟩ := mem_idealFilenames.mp (hsub f hf)
    cases hsplit : contentAfterDash f with
    | none => rfl
    | some c =>
      dsimp only
      have hc : c = contentName t.name := by
        rw [hfeq, contentAfterDash_idealFull] at hsplit
        exact (Option.some.inj hsplit).symm
      rw [if_neg]
      rintro ⟨hdup, hnotin⟩
      exact hnotin
        (mem_idealDupFilenames.mpr ⟨i, t, hti, by rw [← hc]; exact hdup, hfeq⟩)
  have h4 : downloads tracks listing = [] := by
    unfold downloads
    refine List.filterMap_eq_nil_iff.mpr fun p hp => ?_
    obtain ⟨i, item⟩ := p
    cases item with
    | none => rfl
    | some t =>
      dsimp only
      rw [if_pos (hsup _ (mem_idealFilenames.mpr ⟨i, t, hp, rfl⟩))]
  unfold syncActions
  rw [h1, h2, h3, h4]
  rfl

/-- Witness for C4 at a concrete two-track playlist whose staging listing is
exactly the ideal set. -/
theorem c4_resync_idempotent_witness :
    (["1 - A.mp3", "2 - B.mp3"].Perm
        (idealFilenames [some ⟨"A", "a"⟩, some ⟨"B", "b"⟩])) ∧
    syncActions [some ⟨"A", "a"⟩, some ⟨"B", "b"⟩] ["1 - A.mp3", "2 - B.mp3"] =
      [Action.swapDirs, Action.refreshStatus] :=
  ⟨by decide, c4_resync_idempotent _ _ (by decide)⟩

/-! ## Projection membership lemmas -/

theorem mem_renameSrcs {plan : List Action} {f : String} :
    f ∈ renameSrcs plan ↔ ∃ d dst, Action.rename d f dst ∈ plan := by
  unfold renameSrcs
  rw [List.mem_filterMap]
  constructor
  · rintro ⟨a, ha, heq⟩
    cases a with
    | rename d src dst =>
      rw [Option.some.injEq] at heq
      subst heq
      exact ⟨d, dst, ha⟩
    | delete d g => simp at heq
    | download d q g => simp at heq
    | swapDirs => simp at heq
    | refreshStatus => simp at heq
  · rintro ⟨d, dst, h⟩
    exact ⟨.rename d f dst, h, rfl⟩

theorem mem_renameDsts {plan : List Action} {f : String} :
    f ∈ renameDsts plan ↔ ∃ d src, Action.rename d src f ∈ plan := by
  unfold renameDsts
  rw [List.mem_filterMap]
  constructor
  · rintro ⟨a, ha, heq⟩
    cases a with
    | rename d src dst =>
      rw [Option.some.injEq] at heq
      subst heq
      exact ⟨d, src, ha⟩
    | delete d g => simp at heq
    | download d q g => simp at heq
    | swapDirs => simp at heq
    | refreshStatus => simp at heq
  · rintro ⟨d, src, h⟩
    exact ⟨.rename d src f, h, rfl⟩

theorem mem_downloadDsts {plan : List Action} {f : String} :
    f ∈ downloadDsts plan ↔ ∃ d q, Action.download d q f ∈ plan := by
  unfold downloadDsts
  rw [List.mem_filterMap]
  constructor
  · rintro ⟨a, ha, heq⟩
    cases a with
    | download d q dest =>
      rw [Option.some.injEq] at heq
      subst heq
      exact ⟨d, q, ha⟩
    | delete d g => simp at heq
    | rename d s g => simp at heq
    | swapDirs => simp at heq
    | refreshStatus => simp at heq
  · rintro ⟨d, q, h⟩
    exact ⟨.download d q f, h, rfl⟩

/-- Any rename in the plan comes from the unique-rename phase. -/
theorem rename_mem_syncActions {tracks : List PlaylistItem}
    {listing : List String} {d src dst : String}
    (h : Action.rename d src dst ∈ syncActions tracks listing) :
    Action.rename d src dst ∈ uniqueRenames tracks listing := by
  rcases mem_syncActions.mp h with h' | h' | h' | h' | h' | h'
  · obtain ⟨f, heq⟩ := uniqueDeletes_shape h'; exact absurd heq (by simp)
  · exact h'
  · obtain ⟨f, heq⟩ := dupDeletes_shape h'; exact absurd heq (by simp)
  · obtain ⟨q, g, heq⟩ := downloads_shape h'; exact absurd heq (by simp)
  · exact absurd h' (by simp)
  · exact absurd h' (by simp)

/-- Any download in the plan comes from the download phase. -/
theorem download_mem_syncActions {tracks : List PlaylistItem}
    {listing : List String} {d q dest : String}
    (h : Action.download d q dest ∈ syncActions tracks listing) :
    Action.download d q dest ∈ downloads tracks listing := by
  rcases mem_syncActions.mp h with h' | h' | h' | h' | h' | h'
  · obtain ⟨f, heq⟩ := uniqueDeletes_shape h'; exact absurd heq (by simp)
  · obtain ⟨s, g, heq⟩ := uniqueRenames_shape h'; exact absurd heq (by simp)
  · obtain ⟨f, heq⟩ := dupDeletes_shape h'; exact absurd heq (by simp)
  · exact h'
  · exact absurd h' (by simp)
  · exact absurd h' (by simp)

/-- C1, as stated, is false: in the very scenario of the claim (staged
`"3 - Old Title.mp3"` while the unique remote track "Old Title" sits at
position 5), the sync queues the Rename but ALSO schedules a Download for
`"5 - Old Title.mp3"`, because the listing used for the missing-file scan
still predates the queued rename. -/
theorem c1_counterexample :
    Action.rename tempDir "3 - Old Title.mp3" "5 - Old Title.mp3" ∈
      syncActions
        [some ⟨"A", "a"⟩, some ⟨"B", "b"⟩, some ⟨"C", "c"⟩, some ⟨"D", "d"⟩,
          some ⟨"Old Title", "e"⟩] ["3 - Old Title.mp3"] ∧
    Action.download tempDir (searchQuery ⟨"Old Title", "e"⟩)
        "5 - Old Title.mp3" ∈
      syncActions
        [some ⟨"A", "a"⟩, some ⟨"B", "b"⟩, some ⟨"C", "c"⟩, some ⟨"D", "d"⟩,
          some ⟨"Old Title", "e"⟩] ["3 - Old Title.mp3"] := by
  constructor <;> decide

/-- C1 amended: when a staged file's content matches a unique remote track
but its position-prefixed name differs, the sync queues the Rename to the new
ideal filename and queues no Delete of the staged file; however, when the new
ideal filename is absent from the diff-time listing (as in a pure position
move) a Download for it is also scheduled — the move is not handled as a
delete plus a download, but it is re-downloaded. -/
theorem c1_moved_track_rename (tracks : List PlaylistItem)
    (listing : List String) (i : Nat) (t : Track) (f : String)
    (ht : (i, some t) ∈ tracks.enum)
    (hu : ¬ duplicateContent tracks (contentName t.name))
    (hf : f ∈ listing)
    (hc : contentAfterDash f = some (contentName t.name))
    (hne : idealFull i t.name ≠ f) :
    Action.rename tempDir f (idealFull i t.name) ∈
        syncActions tracks listing ∧
    (∀ d, Action.delete d f ∉ syncActions tracks listing) ∧
    (idealFull i t.name ∉ listing →
      Action.download tempDir (searchQuery t) (idealFull i t.name) ∈
        syncActions tracks listing) := by
  have hid : (idealFull i t.name, contentName t.name) ∈ idealUnique tracks :=
    mem_idealUnique.mpr ⟨i, t, ht, hu, rfl, rfl⟩
  have hloc : (f, contentName t.name) ∈ localUnique tracks listing :=
    mem_localUnique.mpr ⟨hf, hc, hu⟩
  refine ⟨?_, ?_, ?_⟩
  · exact mem_syncActions.mpr (Or.inr (Or.inl
      (mem_uniqueRenames.mpr
        ⟨f, idealFull i t.name, contentName t.name, rfl, hid, hloc, hne⟩)))
  · intro d hdel
    rcases mem_syncActions.mp hdel with h' | h' | h' | h' | h' | h'
    · obtain ⟨f', c', heq, hlu, hnv⟩ := mem_uniqueDeletes.mp h'
      rw [Action.delete.injEq] at heq
      obtain ⟨-, hff⟩ := heq
      subst hff
      obtain ⟨-, hsplit', -⟩ := mem_localUnique.mp hlu
      rw [hc] at hsplit'
      have hcc : c' = contentName t.name := (Option.some.inj hsplit').symm
      rw [hcc] at hnv
      exact hnv
        (List.mem_map.mpr ⟨(idealFull i t.name, contentName t.name), hid, rfl⟩)
    · obtain ⟨s, g, heq⟩ := uniqueRenames_shape h'; exact absurd heq (by simp)
    · obtain ⟨f', c', heq, -, hsplit', hdup, -⟩ := mem_dupDeletes.mp h'
      rw [Action.delete.injEq] at heq
      obtain ⟨-, hff⟩ := heq
      subst hff
      rw [hc] at hsplit'
      have hcc : c' = contentName t.name := (Option.some.inj hsplit').symm
      subst hcc
      exact hu hdup
    · obtain ⟨q, g, heq⟩ := downloads_shape h'; exact absurd heq (by simp)
    · exact absurd h' (by simp)
    · exact absurd h' (by simp)
  · intro habs
    exact mem_syncActions.mpr (Or.inr (Or.inr (Or.inr (Or.inl
      (mem_downloads.mpr ⟨i, t, ht, habs, rfl⟩)))))

/-- Witness for the amended C1 at the concrete moved-track scenario. -/
theorem c1_moved_track_rename_witness :
    Action.rename tempDir "3 - Old Title.mp3" "5 - Old Title.mp3" ∈
      syncActions
        [some ⟨"A", "a"⟩, some ⟨"B", "b"⟩, some ⟨"C", "c"⟩, some ⟨"D", "d"⟩,
          some ⟨"Old Title", "e"⟩] ["3 - Old Title.mp3"] ∧
    Action.delete tempDir "3 - Old Title.mp3" ∉
      syncActions
        [some ⟨"A", "a"⟩, some ⟨"B", "b"⟩, some ⟨"C", "c"⟩, some ⟨"D", "d"⟩,
          some ⟨"Old Title", "e"⟩] ["3 - Old Title.mp3"] ∧
    Action.download tempDir (searchQuery ⟨"Old Title", "e"⟩)
        "5 - Old Title.mp3" ∈
      syncActions
        [some ⟨"A", "a"⟩, some ⟨"B", "b"⟩, some ⟨"C", "c"⟩, some ⟨"D", "d"⟩,
          some ⟨"Old Title", "e"⟩] ["3 - Old Title.mp3"] := by
  have h := c1_moved_track_rename
    [some ⟨"A", "a"⟩, some ⟨"B", "b"⟩, some ⟨"C", "c"⟩, some ⟨"D", "d"⟩,
      some ⟨"Old Title", "e"⟩] ["3 - Old Title.mp3"]
    4 ⟨"Old Title", "e"⟩ "3 - Old Title.mp3"
    (by decide) (by decide) (by decide) (by decide) (by decide)
  exact ⟨h.1, h.2.1 tempDir, h.2.2 (by decide)⟩

/-- C2, as stated, is false: a track that merely moved position yields a
rename whose destination is also a download destination, because the rename
has not executed when the missing-file scan reads the listing. -/
theorem c2_counterexample :
    "2 - Song.mp3" ∈ renameDsts
        (syncActions [some ⟨"X", "x"⟩, some ⟨"Song", "y"⟩]
          ["1 - X.mp3", "1 - Song.mp3"]) ∧
    "2 - Song.mp3" ∈ downloadDsts
        (syncActions [some ⟨"X", "x"⟩, some ⟨"Song", "y"⟩]
          ["1 - X.mp3", "1 - Song.mp3"]) := by
  constructor <;> decide

/-- C2 amended: within one sync the download destinations are disjoint from
the rename SOURCES (a rename source is present in the diff-time listing while
every download destination is absent from it); disjointness with rename
destinations does not hold. -/
theorem c2_rename_sources_disjoint_from_downloads
    (tracks : List PlaylistItem) (listing : List String) (f : String)
    (hf : f ∈ renameSrcs (syncActions tracks listing)) :
    f ∉ downloadDsts (syncActions tracks listing) := by
  intro hgd
  obtain ⟨d, dst, hren⟩ := mem_renameSrcs.mp hf
  obtain ⟨d', q, hdl⟩ := mem_downloadDsts.mp hgd
  have hren' := rename_mem_syncActions hren
  obtain ⟨src, dst', c, heq, -, hloc, -⟩ := mem_uniqueRenames.mp hren'
  rw [Action.rename.injEq] at heq
  obtain ⟨-, hsrc, -⟩ := heq
  subst hsrc
  have hinl : f ∈ listing := (mem_localUnique.mp hloc).1
  have hdl' := download_mem_syncActions hdl
  obtain ⟨i, t, -, habs, heqd⟩ := mem_downloads.mp hdl'
  rw [Action.download.injEq] at heqd
  obtain ⟨-, -, hdest⟩ := heqd
  rw [← hdest] at habs
  exact habs hinl

/-- Witness for the amended C2: at the moved-track input, the rename source
`"1 - Song.mp3"` is not among the download destinations. -/
theorem c2_rename_sources_disjoint_from_downloads_witness :
    "1 - Song.mp3" ∉ downloadDsts
        (syncActions [some ⟨"X", "x"⟩, some ⟨"Song", "y"⟩]
          ["1 - X.mp3", "1 - Song.mp3"]) :=
  c2_rename_sources_disjoint_from_downloads _ _ "1 - Song.mp3" (by decide)

/-- C5: tracks of a collision set never participate in a rename — every
rename's source and destination have a non-duplicated content name; a staged
file whose content name is duplicated is deleted exactly when it is not one of
the ideal duplicate filenames; and a missing ideal duplicate filename is
downloaded. -/
theorem c5_collision_set_never_renamed (tracks : List PlaylistItem)
    (listing : List String) :
    (∀ d src dst, Action.rename d src dst ∈ syncActions tracks listing →
      (∀ c, contentAfterDash src = some c → ¬ duplicateContent tracks c) ∧
      (∀ c, contentAfterDash dst = some c → ¬ duplicateContent tracks c)) ∧
    (∀ f ∈ listing, ∀ c, contentAfterDash f = some c →
      duplicateContent tracks c →
      (Action.delete tempDir f ∈ syncActions tracks listing ↔
        f ∉ idealDupFilenames tracks)) ∧
    (∀ i t, (i, some t) ∈ tracks.enum →
      duplicateContent tracks (contentName t.name) →
      idealFull i t.name ∉ listing →
      Action.download tempDir (searchQuery t) (idealFull i t.name) ∈
        syncActions tracks listing) := by
  refine ⟨?_, ?_, ?_⟩
  · intro d src dst hmem
    obtain ⟨src', dst', c₀, heq, hid, hloc, -⟩ :=
      mem_uniqueRenames.mp (rename_mem_syncActions hmem)
    rw [Action.rename.injEq] at heq
    obtain ⟨-, hsrc, hdst⟩ := heq
    subst hsrc; subst hdst
    obtain ⟨-, hsplit, hnd⟩ := mem_localUnique.mp hloc
    obtain ⟨i, t, -, hnd', hdst', hc₀⟩ := mem_idealUnique.mp hid
    constructor
    · intro c hc
      rw [hsplit] at hc
      rw [← Option.some.inj hc]
      exact hnd
    · intro c hc
      rw [hdst', contentAfterDash_idealFull] at hc
      rw [← Option.some.inj hc]
      exact hnd'
  · intro f hf c hsplit hdup
    constructor
    · intro hdel
      rcases mem_syncActions.mp hdel with h' | h' | h' | h' | h' | h'
      · obtain ⟨f', c', heq, hlu, -⟩ := mem_uniqueDeletes.mp h'
        rw [Action.delete.injEq] at heq
        obtain ⟨-, hff⟩ := heq
        subst hff
        obtain ⟨-, hsplit', hnd⟩ := mem_localUnique.mp hlu
        rw [hsplit] at hsplit'
        rw [Option.some.inj hsplit'] at hdup
        exact absurd hdup hnd
      · obtain ⟨s, g, heq⟩ := uniqueRenames_shape h'
        exact absurd heq (by simp)
      · obtain ⟨f', c', heq, -, -, -, hni⟩ := mem_dupDeletes.mp h'
        rw [Action.delete.injEq] at heq
        obtain ⟨-, hff⟩ := heq
        subst hff
        exact hni
      · obtain ⟨q, g, heq⟩ := downloads_shape h'
        exact absurd heq (by simp)
      · exact absurd h' (by simp)
      · exact absurd h' (by simp)
    · intro hni
      exact mem_syncActions.mpr (Or.inr (Or.inr (Or.inl
        (mem_dupDeletes.mpr ⟨f, c, rfl, hf, hsplit, hdup, hni⟩))))
  · intro i t ht _hdup habs
    exact mem_syncActions.mpr (Or.inr (Or.inr (Or.inr (Or.inl
      (mem_downloads.mpr ⟨i, t, ht, habs, rfl⟩)))))

/-- Witness for C5 at the duplicate-title playlist of the spec scenario:
the stale staged duplicate is deleted and the missing first ideal duplicate
filename is downloaded. -/
theorem c5_collision_set_never_renamed_witness :
    Action.delete tempDir "9 - Song A.mp3" ∈
      syncActions [some ⟨"Song A", "x"⟩, some ⟨"Song A", "y"⟩]
        ["9 - Song A.mp3"] ∧
    Action.download tempDir (searchQuery ⟨"Song A", "x"⟩) "1 - Song A.mp3" ∈
      syncActions [some ⟨"Song A", "x"⟩, some ⟨"Song A", "y"⟩]
        ["9 - Song A.mp3"] := by
  have h := c5_collision_set_never_renamed
    [some ⟨"Song A", "x"⟩, some ⟨"Song A", "y"⟩] ["9 - Song A.mp3"]
  exact ⟨(h.2.1 "9 - Song A.mp3" (by decide) "Song A.mp3" (by decide)
      (by decide)).mpr (by decide),
    h.2.2 0 ⟨"Song A", "x"⟩ (by decide) (by decide) (by decide)⟩

/-- C10: every Delete and Rename of a sync targets the staging directory; the
only action of the plan touching the live library directory is the swap, the
swap occurs exactly once, and it is the last filesystem-mutating action. -/
theorem c10_live_library_untouched_before_swap (tracks : List PlaylistItem)
    (listing : List String) :
    (∀ a ∈ syncActions tracks listing,
      (isDelete a || isRename a) = true → actionDir a = some tempDir) ∧
    (∀ a ∈ syncActions tracks listing,
      actionTouches a songsDir = true → a = Action.swapDirs) ∧
    (syncActions tracks listing).count Action.swapDirs = 1 ∧
    ((syncActions tracks listing).filter isFsMutating).getLast? =
      some Action.swapDirs := by
  have hshape : ∀ a ∈ syncActions tracks listing,
      (∃ f, a = Action.delete tempDir f) ∨
      (∃ s d, a = Action.rename tempDir s d) ∨
      (∃ q d, a = Action.download tempDir q d) ∨
      a = Action.swapDirs ∨ a = Action.refreshStatus := by
    intro a ha
    rcases mem_syncActions.mp ha with h' | h' | h' | h' | h' | h'
    · exact Or.inl (uniqueDeletes_shape h')
    · exact Or.inr (Or.inl (uniqueRenames_shape h'))
    · exact Or.inl (dupDeletes_shape h')
    · exact Or.inr (Or.inr (Or.inl (downloads_shape h')))
    · exact Or.inr (Or.inr (Or.inr (Or.inl h')))
    · exact Or.inr (Or.inr (Or.inr (Or.inr h')))
  refine ⟨?_, ?_, ?_, ?_⟩
  · intro a ha hdr
    rcases hshape a ha with ⟨f, rfl⟩ | ⟨s, d, rfl⟩ | ⟨q, d, rfl⟩ | rfl | rfl
    · rfl
    · rfl
    · simp [isDelete, isRename] at hdr
    · simp [isDelete, isRename] at hdr
    · simp [isDelete, isRename] at hdr
  · intro a ha htch
    rcases hshape a ha with ⟨f, rfl⟩ | ⟨s, d, rfl⟩ | ⟨q, d, rfl⟩ | rfl | rfl
    · simp [actionTouches, tempDir, songsDir] at htch
    · simp [actionTouches, tempDir, songsDir] at htch
    · simp [actionTouches, tempDir, songsDir] at htch
    · rfl
    · simp [actionTouches] at htch
  · have hz : ∀ (phase : List Action),
        (∀ a ∈ phase, a ∈ syncActions tracks listing) →
        (∀ a ∈ phase, a ≠ Action.swapDirs) →
        phase.count Action.swapDirs = 0 := fun phase _ hne =>
      List.count_eq_zero.mpr fun hmem => hne _ hmem rfl
    unfold syncActions
    rw [List.count_append, List.count_append, List.count_append,
      List.count_append]
    have h1 : (uniqueDeletes tracks listing).count Action.swapDirs = 0 :=
      List.count_eq_zero.mpr fun hmem => by
        obtain ⟨f, heq⟩ := uniqueDeletes_shape hmem; simp at heq
    have h2 : (uniqueRenames tracks listing).count Action.swapDirs = 0 :=
      List.count_eq_zero.mpr fun hmem => by
        obtain ⟨s, d, heq⟩ := uniqueRenames_shape hmem; simp at heq
    have h3 : (dupDeletes tracks listing).count Action.swapDirs = 0 :=
      List.count_eq_zero.mpr fun hmem => by
        obtain ⟨f, heq⟩ := dupDeletes_shape hmem; simp at heq
    have h4 : (downloads tracks listing).count Action.swapDirs = 0 :=
      List.count_eq_zero.mpr fun hmem => by
        obtain ⟨q, d, heq⟩ := downloads_shape hmem; simp at heq
    rw [h1, h2, h3, h4]
    decide
  · have hA : (uniqueDeletes tracks listing).filter isFsMutating =
        uniqueDeletes tracks listing :=
      List.filter_eq_self.mpr fun a ha => by
        obtain ⟨f, rfl⟩ := uniqueDeletes_shape ha; rfl
    have hB : (uniqueRenames tracks listing).filter isFsMutating =
        uniqueRenames tracks listing :=
      List.filter_eq_self.mpr fun a ha => by
        obtain ⟨s, d, rfl⟩ := uniqueRenames_shape ha; rfl
    have hC : (dupDeletes tracks listing).filter isFsMutating =
        dupDeletes tracks listing :=
      List.filter_eq_self.mpr fun a ha => by
        obtain ⟨f, rfl⟩ := dupDeletes_shape ha; rfl
    have hD : (downloads tracks listing).filter isFsMutating =
        downloads tracks listing :=
      List.filter_eq_self.mpr fun a ha => by
        obtain ⟨q, d, rfl⟩ := downloads_shape ha; rfl
    have hE : [Action.swapDirs, Action.refreshStatus].filter isFsMutating =
        [Action.swapDirs] := rfl
    unfold syncActions
    rw [List.filter_append, List.filter_append, List.filter_append,
      List.filter_append, hA, hB, hC, hD, hE]
    exact List.getLast?_concat _

/-- Witness for C10 at the moved-track input: the rename acts in the staging
directory and the plan swaps exactly once. -/
theorem c10_live_library_untouched_before_swap_witness :
    actionDir (Action.rename tempDir "1 - Song.mp3" "2 - Song.mp3") =
      some tempDir ∧
    (syncActions [some ⟨"X", "x"⟩, some ⟨"Song", "y"⟩]
        ["1 - X.mp3", "1 - Song.mp3"]).count Action.swapDirs = 1 := by
  have h := c10_live_library_untouched_before_swap
    [some ⟨"X", "x"⟩, some ⟨"Song", "y"⟩] ["1 - X.mp3", "1 - Song.mp3"]
  exact ⟨h.1 (Action.rename tempDir "1 - Song.mp3" "2 - Song.mp3")
    (by decide) (by decide), h.2.2.1⟩

/-- C7: a sync requested while a track is playing performs nothing: it
returns the state unchanged, schedules no action at all, and reports the
`postponed` outcome, which is distinct from both failure outcome shapes. -/
theorem c7_sync_postponed_while_playing (st : BotState) (spAvailable : Bool)
    (remote : List PlaylistItem) (listing : List String) (now : Nat)
    (h : st.currentlyPlaying.isSome) :
    sync_playlist st spAvailable remote listing now =
      (st, SyncOutcome.postponed, []) ∧
    (∀ d r del, SyncOutcome.postponed ≠ SyncOutcome.completed d r del) ∧
    SyncOutcome.postponed ≠ SyncOutcome.spotifyDown := by
  refine ⟨?_, fun d r del => by simp, by simp⟩
  unfold sync_playlist
  rw [if_pos h]

/-- Witness for C7: with a playing track, a concrete sync call is a no-op
reporting `postponed`. -/
theorem c7_sync_postponed_while_playing_witness :
    sync_playlist ⟨some "songs/1 - A.mp3", [], none⟩ true
        [some ⟨"B", "b"⟩] [] 17 =
      ((⟨some "songs/1 - A.mp3", [], none⟩ : BotState),
        SyncOutcome.postponed, []) :=
  (c7_sync_postponed_while_playing ⟨some "songs/1 - A.mp3", [], none⟩ true
    [some ⟨"B", "b"⟩] [] 17 (by decide)).1

/-- C8: when the combined trim+normalize invocation exits nonzero, the
post-processor retries with normalization only; a successful retry replaces
the original with the normalized, untrimmed output and reports success, and a
failing retry leaves the original untouched and reports failure (the function
returns instead of raising). -/
theorem c8_ffmpeg_fallback (env : FfmpegEnv) (h : env.combinedExit ≠ 0) :
    (env.fallbackExit = 0 →
      ffmpeg_normalize_and_trim env = (true, AudioContent.normalizedOnly)) ∧
    (env.fallbackExit ≠ 0 →
      ffmpeg_normalize_and_trim env = (false, AudioContent.original)) := by
  constructor
  · intro h2
    unfold ffmpeg_normalize_and_trim
    rw [if_pos h, if_pos h2]
  · intro h2
    unfold ffmpeg_normalize_and_trim
    rw [if_pos h, if_neg h2]

/-- Witness for C8 at the two concrete exit-code environments. -/
theorem c8_ffmpeg_fallback_witness :
    ffmpeg_normalize_and_trim ⟨1, 0⟩ = (true, AudioContent.normalizedOnly) ∧
    ffmpeg_normalize_and_trim ⟨1, 1⟩ = (false, AudioContent.original) :=
  ⟨(c8_ffmpeg_fallback ⟨1, 0⟩ (by decide)).1 (by decide),
    (c8_ffmpeg_fallback ⟨1, 1⟩ (by decide)).2 (by decide)⟩

/-- C6: the edit queue is drained in strict FIFO enqueue order however the
events interleave: after any event sequence the executed edits followed by the
still-pending ones are exactly the enqueued edits in enqueue order (so the
executed sequence is always a prefix of it), and a final drain executes
exactly the enqueued sequence. -/
theorem c6_edit_queue_fifo (α : Type) (evs : List (QueueEvent α)) :
    (drainRun evs).executed ++ (drainRun evs).pending = enqueuedOf evs ∧
    (drainRun (evs ++ [QueueEvent.drain])).executed = enqueuedOf evs := by
  have key : ∀ (s : QueueState α) (l : List (QueueEvent α)),
      (l.foldl qstep s).executed ++ (l.foldl qstep s).pending =
        s.executed ++ s.pending ++ enqueuedOf l := by
    intro s l
    induction l generalizing s with
    | nil => simp [enqueuedOf]
    | cons ev rest ih =>
      cases ev with
      | enqueue e =>
        rw [List.foldl_cons]
        rw [ih (qstep s (.enqueue e))]
        simp [qstep, enqueuedOf, List.filterMap_cons]
      | drain =>
        rw [List.foldl_cons]
        rw [ih (qstep s .drain)]
        simp [qstep, enqueuedOf, List.filterMap_cons]
  have h1 : (drainRun evs).executed ++ (drainRun evs).pending =
      enqueuedOf evs := by
    have := key ⟨[], []⟩ evs
    simpa [drainRun] using this
  refine ⟨h1, ?_⟩
  have h2 : drainRun (evs ++ [QueueEvent.drain]) =
      qstep (drainRun evs) .drain := by
    unfold drainRun
    rw [List.foldl_append]
    rfl
  rw [h2]
  simpa [qstep] using h1

/-- C9, as stated, is false: the part after the first `" - "` of the encoded
filename is the sanitized title with the `.mp3` extension still attached, not
the bare sanitized title — already for the clean title `"Song"` at
position 1. -/
theorem c9_counterexample :
    contentAfterDash (idealFull 0 "Song") = some "Song.mp3" ∧
    sanitize_filename "Song" = "Song" ∧
    contentAfterDash (idealFull 0 "Song") ≠
      some (sanitize_filename "Song") := by
  refine ⟨by decide, by decide, by decide⟩

/-- C9 amended: for every title and position, encoding and then taking the
part after the first `" - "` separator recovers the sanitized title with the
`".mp3"` extension appended (the content name), rather than the bare
sanitized title. -/
theorem c9_roundtrip_recovers_content_name (i : Nat) (name : String) :
    contentAfterDash (idealFull i name) =
      some (sanitize_filename name ++ ".mp3") :=
  contentAfterDash_idealFull i name

end Hikari
